import Mathlib

/-!
Verification development for the auto-refactor engine (`src/refactor.ts`).

The TypeScript source is shallowly embedded: every function is translated
into an executable Lean definition operating over a pure file-system model
(`FS`, an association list from path to content together with a list of
faulty paths on which write-like operations raise).  Fallible operations
return `Except (FS × String)`, carrying the file-system state at the point
of failure, which mirrors a thrown exception observed by a `catch` block.

Where the engine delegates to its synthesizer branches
(`refactorGraphQLFile` / `refactorTypesFile` / `refactorGenericFile`), each
branch is a straight-line sequence of `fs.writeFile` calls whose written
paths become `createdFiles`; those branches are abstracted here by the list
of (path, content) writes they perform, over which the transaction theorems
quantify.  Likewise `analyzeFile` and its callees only read, never write
(checked against the source), so the analysis is abstracted by a pure
function argument.
-/

/-! ## Basic character and string utilities (JS semantics) -/

/-- ASCII word character, the JS regex class `\w` = `[A-Za-z0-9_]`. -/
def isWordChar (c : Char) : Bool :=
  c.isAlpha || c.isDigit || c = '_'

/-- Whitespace as matched by the JS regex class `\s` (ASCII fragment). -/
def isWsChar (c : Char) : Bool :=
  c = ' ' || c = '\t' || c = '\n' || c = '\r'

/-- `leadsWith n h` is true when `n` is an initial segment of `h`. -/
def leadsWith : List Char → List Char → Bool
  | [], _ => true
  | _ :: _, [] => false
  | a :: asx, b :: bs => a = b && leadsWith asx bs

/-- Substring test on character lists; `listContainsSub n h` embeds JS
`h.includes(n)`. -/
def listContainsSub (n : List Char) : List Char → Bool
  | [] => n.isEmpty
  | h@(_ :: t) => leadsWith n h || listContainsSub n t

/-- JS `hay.includes(needle)`. -/
def containsSub (needle hay : String) : Bool :=
  listContainsSub needle.data hay.data

/-- Number of occurrences of character `c` in `s`, embedding JS
`(s.match(/c/g) || []).length` for a single-character pattern. -/
def countCh (c : Char) (s : String) : Nat :=
  s.data.count c

/-- JS `s.trim()`: strip leading and trailing whitespace. -/
def jsTrim (s : String) : String :=
  ⟨((s.data.dropWhile isWsChar).reverse.dropWhile isWsChar).reverse⟩

/-! ## File-system model

An `FS` holds the files as an association list from path to content,
together with a set of faulty paths: a write-like operation touching a
faulty path raises, which models the storage-level failures the engine's
error paths react to. -/

structure FS where
  files : List (String × String)
  faults : List String
  deriving Repr, DecidableEq

/-- Remove every binding of path `p`. -/
def dropPath (p : String) : List (String × String) → List (String × String)
  | [] => []
  | a :: t => if a.1 = p then dropPath p t else a :: dropPath p t

/-- `fs.pathExists(p)`. -/
def pathExists (fs : FS) (p : String) : Bool :=
  (fs.files.lookup p).isSome

/-- `fs.readFile(p, 'utf8')`; `none` models the thrown ENOENT. -/
def readFileF (fs : FS) (p : String) : Option String :=
  fs.files.lookup p

/-- `fs.writeFile(p, c)`: raises on a faulty path, otherwise binds `p` to `c`. -/
def writeFileF (fs : FS) (p c : String) : Except (FS × String) FS :=
  if fs.faults.contains p then .error (fs, "EIO: " ++ p)
  else .ok ⟨(p, c) :: dropPath p fs.files, fs.faults⟩

/-- `fs.copy(src, dst)`: raises when the source is missing, then writes. -/
def copyF (fs : FS) (src dst : String) : Except (FS × String) FS :=
  match readFileF fs src with
  | none => .error (fs, "ENOENT: " ++ src)
  | some c => writeFileF fs dst c

/-- `fs.remove(p)`: raises on a faulty path, otherwise unbinds `p`. -/
def removeF (fs : FS) (p : String) : Except (FS × String) FS :=
  if fs.faults.contains p then .error (fs, "EIO: " ++ p)
  else .ok ⟨dropPath p fs.files, fs.faults⟩

/-! ## verifyRefactoring (src/refactor.ts lines 2217-2258)

Three passes over `newFiles`: existence, non-emptiness after trimming,
balanced brace counts.  The first offending file of the earliest failing
pass is reported. -/

/-- First element of `l` on which `p` is false, scanning left to right;
embeds the early-returning `for` loops of `verifyRefactoring`. -/
def firstFailing (p : String → Bool) : List String → Option String
  | [] => none
  | f :: rest => if p f then firstFailing p rest else some f

/-- Check (b): the file content is non-empty after `trim()`. -/
def contentNonEmpty (fs : FS) (f : String) : Bool :=
  jsTrim ((readFileF fs f).getD "") ≠ ""

/-- Check (c): equally many `{` and `}` in the content. -/
def bracesBalanced (fs : FS) (f : String) : Bool :=
  countCh '{' ((readFileF fs f).getD "") = countCh '}' ((readFileF fs f).getD "")

structure VerifyResult where
  success : Bool
  error : Option String
  deriving Repr, DecidableEq

/-- `verifyRefactoring(originalFile, newFiles)`.  The three loops of the
source run in order; within a loop the first offending file is returned.
(The `fs.readFile` calls of the later loops cannot raise because the first
loop established existence, so the surrounding `try` never fires.) -/
def verifyRefactoring (fs : FS) (newFiles : List String) : VerifyResult :=
  match firstFailing (fun f => pathExists fs f) newFiles with
  | some f => ⟨false, some ("Created file does not exist: " ++ f)⟩
  | none =>
    match firstFailing (fun f => contentNonEmpty fs f) newFiles with
    | some f => ⟨false, some ("Created file is empty: " ++ f)⟩
    | none =>
      match firstFailing (fun f => bracesBalanced fs f) newFiles with
      | some f => ⟨false, some ("Syntax error in file: " ++ f ++ " - unbalanced braces")⟩
      | none => ⟨true, none⟩

/-- The conjunction of the three per-file checks of `verifyRefactoring`. -/
def verifyChecks (fs : FS) (f : String) : Bool :=
  pathExists fs f && contentNonEmpty fs f && bracesBalanced fs f

/-- Concrete store used to witness the verification theorems. -/
def fsVerifyEx : FS :=
  ⟨[("a.ts", "const x = 1;")], []⟩

/-! ## Transaction manager (src/refactor.ts lines 2260-2385)

`performRefactoring` creates a backup, runs one synthesizer branch, then
verifies and either commits or rolls back.  Each branch is a straight-line
sequence of `fs.writeFile` calls whose paths become `createdFiles`, so a
branch is embedded as the list `writes` of (path, content) pairs it writes.
The `analyzeFile` result only supplies `estimatedReduction` here. -/

structure Suggestions where
  suggestedFiles : List String
  estimatedReduction : Nat
  analysis : List String
  deriving Repr, DecidableEq

structure RefactorResult where
  originalFile : String
  newFiles : List String
  linesReduced : Nat
  success : Bool
  error : Option String
  analysis : Option (List String)
  deriving Repr, DecidableEq

/-- The `for` loop of `rollbackRefactoring`: remove every created file that
exists; a raise aborts the loop (and the rollback). -/
def removeCreatedFiles (fs : FS) : List String → Except (FS × String) FS
  | [] => .ok fs
  | f :: rest =>
    if pathExists fs f then
      match removeF fs f with
      | .error e => .error e
      | .ok fs' => removeCreatedFiles fs' rest
    else removeCreatedFiles fs rest

/-- `rollbackRefactoring(originalFile, createdFiles, backupPath)`: remove the
created files, then restore the original from the backup when the backup
exists.  Its own failure is rethrown to the caller (the `catch` block logs
and does `throw error`). -/
def rollbackRefactoring (fs : FS) (originalFile : String) (createdFiles : List String)
    (backupPath : String) : Except (FS × String) FS :=
  match removeCreatedFiles fs createdFiles with
  | .error e => .error e
  | .ok fs1 =>
    if pathExists fs1 backupPath then copyF fs1 backupPath originalFile
    else .ok fs1

/-- The write sequence of one synthesizer branch. -/
def writeAll (fs : FS) : List (String × String) → Except (FS × String) FS
  | [] => .ok fs
  | (p, c) :: rest =>
    match writeFileF fs p c with
    | .error e => .error e
    | .ok fs' => writeAll fs' rest

/-- `performRefactoring(filePath, content, suggestions)`.  The backup copy
happens before the `try`; inside it the branch performs its write sequence
`writes` and returns `newFiles`; the returned paths — `pushed` here —
become `createdFiles`.  The two lists differ in the source:
`refactorGraphQLFile` ends with `fs.writeFile(filePath, …)` WITHOUT pushing
it (src 2597), so the overwritten original is written but not tracked,
while `refactorTypesFile` pushes `dir/index.ts` (src 2675-2678), which in
that branch's trigger scenario IS the original `…/types/index.ts`.
Verification and rollback then run over `createdFiles`.  A raise inside the
branch reaches the `catch` with `createdFiles` still empty (the paths are
appended only after the branch returns), rolls back, and rethrows; a raise
inside the verification-failure rollback reaches the same `catch`, which
rolls back once more and rethrows. -/
def performRefactoring (filePath : String) (writes : List (String × String))
    (pushed : List String) (backupPath : String) (sugg : Suggestions) (fs : FS) :
    Except (FS × String) (FS × RefactorResult) :=
  match copyF fs filePath backupPath with
  | .error e => .error e
  | .ok fs1 =>
    match writeAll fs1 writes with
    | .error (fsp, e) =>
      match rollbackRefactoring fsp filePath [] backupPath with
      | .ok fs2 => .error (fs2, e)
      | .error e2 => .error e2
    | .ok fs2 =>
      let v := verifyRefactoring fs2 pushed
      if v.success then
        .ok (fs2, ⟨filePath, pushed, sugg.estimatedReduction, true, none, none⟩)
      else
        match rollbackRefactoring fs2 filePath pushed backupPath with
        | .ok fs3 => .ok (fs3, ⟨filePath, [], 0, false, v.error, none⟩)
        | .error (fs3, e2) =>
          match rollbackRefactoring fs3 filePath pushed backupPath with
          | .ok fs4 => .error (fs4, e2)
          | .error e3 => .error e3

/-- `refactorFile(file)`: read the file, analyze it, run the transaction,
and convert ANY raise from `performRefactoring` into an ordinary failed
result (`success: false, error: String(error)`).  The synthesizer branch —
its write sequence and the `newFiles` it returns — and the analysis are the
function parameters `synth` and `analyze`. -/
def refactorFile (synth : String → List (String × String) × List String)
    (analyze : String → String → Suggestions)
    (filePath backupPath : String) (fs : FS) :
    Except (FS × String) (FS × RefactorResult) :=
  match readFileF fs filePath with
  | none => .error (fs, "ENOENT: " ++ filePath)
  | some content =>
    match performRefactoring filePath (synth content).1 (synth content).2 backupPath
        (analyze filePath content) fs with
    | .ok r => .ok r
    | .error (fs', msg) => .ok (fs', ⟨filePath, [], 0, false, some msg, none⟩)

/-! ### Fault-free evaluation helpers -/

/-- The pure effect of a fault-free write sequence. -/
def writePure (fs : FS) : List (String × String) → FS
  | [] => fs
  | (p, c) :: rest => writePure ⟨(p, c) :: dropPath p fs.files, fs.faults⟩ rest

/-- The pure effect of a fault-free removal sequence. -/
def removePure (fs : FS) : List String → FS
  | [] => fs
  | f :: rest => removePure ⟨dropPath f fs.files, fs.faults⟩ rest

/-- The store after `createBackup` copied `orig` (the current content of the
original file) to `backupPath`. -/
def backedUp (fs : FS) (backupPath orig : String) : FS :=
  ⟨(backupPath, orig) :: dropPath backupPath fs.files, fs.faults⟩

/-! ## run loop and scan (src/refactor.ts lines 1682-1812)

`run` selects the files (by `scan` or a specific file) and then iterates:
in dry-run mode it only reads and analyzes; otherwise it backs up (unless
disabled), refactors, and catches any raise into a failed result.  The
run-level and transaction-level backups share `backupPathOf` here (the
source derives both names from the wall clock). -/

structure FileToRefactor where
  path : String
  lines : Nat
  framework : String
  deriving Repr, DecidableEq

structure RunOptions where
  dryRun : Bool
  createBackups : Bool
  deriving Repr, DecidableEq

/-- The result pushed by the dry-run branch of `run` for one file: read,
analyze, report suggestions with `success: true`; a read failure is caught
into a failed result by the loop's `catch`. -/
def dryRunResult (analyze : String → String → Suggestions) (fs : FS)
    (file : FileToRefactor) : RefactorResult :=
  match readFileF fs file.path with
  | some content =>
    ⟨file.path, (analyze file.path content).suggestedFiles,
      (analyze file.path content).estimatedReduction, true, none,
      some (analyze file.path content).analysis⟩
  | none => ⟨file.path, [], 0, false, some ("ENOENT: " ++ file.path), none⟩

/-- One non-dry-run iteration of `run`'s loop: optional run-level backup,
then `refactorFile`; a raise from either is caught into a failed result. -/
def runStep (synth : String → List (String × String) × List String)
    (analyze : String → String → Suggestions) (opts : RunOptions)
    (backupPathOf : String → String) (fs : FS) (file : FileToRefactor) :
    FS × RefactorResult :=
  if opts.createBackups then
    match copyF fs file.path (backupPathOf file.path) with
    | .error (fsp, e) => (fsp, ⟨file.path, [], 0, false, some e, none⟩)
    | .ok fs1 =>
      match refactorFile synth analyze file.path (backupPathOf file.path) fs1 with
      | .ok r => r
      | .error (fs2, e) => (fs2, ⟨file.path, [], 0, false, some e, none⟩)
  else
    match refactorFile synth analyze file.path (backupPathOf file.path) fs with
    | .ok r => r
    | .error (fs2, e) => (fs2, ⟨file.path, [], 0, false, some e, none⟩)

/-- The `for (const file of filesToRefactor)` loop of `run`. -/
def runLoop (synth : String → List (String × String) × List String)
    (analyze : String → String → Suggestions) (opts : RunOptions)
    (backupPathOf : String → String) (fs : FS) :
    List FileToRefactor → FS × List RefactorResult
  | [] => (fs, [])
  | file :: rest =>
    if opts.dryRun then
      let r := dryRunResult analyze fs file
      let tail := runLoop synth analyze opts backupPathOf fs rest
      (tail.1, r :: tail.2)
    else
      let s := runStep synth analyze opts backupPathOf fs file
      let tail := runLoop synth analyze opts backupPathOf s.1 rest
      (tail.1, s.2 :: tail.2)

/-- JS `content.split('\n')` on character lists. -/
def splitLines : List Char → List (List Char)
  | [] => [[]]
  | c :: rest =>
    if c = '\n' then [] :: splitLines rest
    else
      match splitLines rest with
      | [] => [[c]]
      | s :: ss => (c :: s) :: ss

/-- `getFileLineCount`: `content.split('\n').length`. -/
def lineCount (content : String) : Nat :=
  (splitLines content.data).length

/-- `scan()`: over the glob candidates (an external collaborator supplies
them, and they exist on disk), keep every file whose line count exceeds
`config.maxLines`. -/
def scan (candidates : List String) (maxLines : Nat) (framework : String)
    (fs : FS) : List FileToRefactor :=
  candidates.filterMap (fun p =>
    let lines := lineCount ((readFileF fs p).getD "")
    if maxLines < lines then some ⟨p, lines, framework⟩ else none)

/-! ### Concrete transaction scenarios -/

/-- A store holding one source file, no faults. -/
def fsTxEx : FS :=
  ⟨[("a.ts", "orig")], []⟩

/-- A store whose original file rejects writes: restoring it must fail. -/
def fsRbEx : FS :=
  ⟨[("a.ts", "orig")], ["a.ts"]⟩

/-- A branch writing a single empty file (and returning it as `newFiles`),
which verification rejects. -/
def synthEmpty : String → List (String × String) × List String :=
  fun _ => ([("a-part1.ts", "")], ["a-part1.ts"])

/-- A trivial analysis. -/
def analyzeTriv : String → String → Suggestions :=
  fun _ _ => ⟨[], 0, []⟩

/-- The store left behind by the failed rollback in the `fsRbEx` scenario. -/
def fsRbOut : FS :=
  ⟨[("b.backup", "orig"), ("a.ts", "orig")], ["a.ts"]⟩

/-- A store with one three-line file, for the scan theorems. -/
def fsScanEx : FS :=
  ⟨[("a.ts", "a\nb\nc")], []⟩

/-! ## React file scanner (src/refactor.ts lines 4099-4330)

`parseReactFile` walks the lines; at each line the trimmed text selects a
rule (import / type / constant / function-or-component), the matching
`findEndOf*` loop delimits the block, and the cursor jumps past it.  The
`findEndOf*` loops are embedded as offset computations over the suffix of
lines beginning at the cursor; a loop that falls off the end returns the
last index, which for the suffix formulation collapses with the in-loop
return on the final line. -/

/-- JS `s.startsWith(pre)`. -/
def strStartsWith (pre s : String) : Bool :=
  leadsWith pre.data s.data

def headIsUpper : List Char → Bool
  | d :: _ => d.isUpper
  | [] => false

/-- After a keyword: at least one whitespace, then the first non-whitespace
character is `[A-Z]` — the continuation `\s+[A-Z]` of the component-name
regex. -/
def upperAfterWs : List Char → Bool
  | [] => false
  | c :: rest => isWsChar c && headIsUpper ((c :: rest).dropWhile isWsChar)

/-- Test of `/(?:function|const)\s+([A-Z][a-zA-Z0-9]*)/`: scan left to
right for `function` or `const` followed by whitespace and an upper-case
letter. -/
def kwUpperMatch : List Char → Bool
  | [] => false
  | l@(_ :: t) =>
    (if leadsWith "function".data l then upperAfterWs (l.drop 8)
     else if leadsWith "const".data l then upperAfterWs (l.drop 5)
     else false) || kwUpperMatch t

/-- Test of `/<[A-Z][^>]*>/`: a `<`, an upper-case letter, and a later `>`
(the first such `>` closes the match). -/
def genericTagMatch : List Char → Bool
  | [] => false
  | c :: rest =>
    (c = '<' && headIsUpper rest &&
      (match rest with
       | _ :: rest2 => rest2.any (fun x => x = '>')
       | [] => false)) || genericTagMatch rest

/-- The captured `(\w+)` after a keyword: `\s+` then a maximal word run. -/
def componentNameAfterKw (l : List Char) : Option (List Char) :=
  match l with
  | [] => none
  | c :: _ =>
    if isWsChar c then
      match l.dropWhile isWsChar with
      | d :: ds => if isWordChar d then some (d :: ds.takeWhile isWordChar) else none
      | [] => none
    else none

/-- First match of `/(?:function|const)\s+(\w+)/`, the declared
identifier, scanning left to right with `function` preferred at each
position. -/
def componentNameChars : List Char → Option (List Char)
  | [] => none
  | l@(_ :: t) =>
    (if leadsWith "function".data l then componentNameAfterKw (l.drop 8)
     else if leadsWith "const".data l then componentNameAfterKw (l.drop 5)
     else none).orElse (fun _ => componentNameChars t)

def componentNameOf (line : String) : Option String :=
  (componentNameChars line.data).map (fun l => ⟨l⟩)

def endsWithList (suf l : List Char) : Bool :=
  leadsWith suf.reverse l.reverse

/-- The role suffixes of `/^[A-Z].*(?:Table|Component|Page|View|Layout|App)$/`. -/
def roleNameSuffixes : List String :=
  ["Table", "Component", "Page", "View", "Layout", "App"]

/-- Test of the role-name regex: first character upper-case, and the
remainder (after that first character) ends with one of the suffixes. -/
def roleNameMatch (name : String) : Bool :=
  match name.data with
  | [] => false
  | c :: rest => c.isUpper && roleNameSuffixes.any (fun suf => endsWithList suf.data rest)

/-- `isFunction(line)` (src lines 4275-4284). -/
def isFunction (line : String) : Bool :=
  (containsSub "function " line ||
    (containsSub "const " line && containsSub " = " line &&
      (containsSub "=>" line || containsSub "function" line))) &&
  !containsSub "React.FC" line && !containsSub ": FC" line

/-- `isComponent(line)` (src lines 4286-4301). -/
def isComponent (line : String) : Bool :=
  (containsSub "function " line ||
    (containsSub "const " line && containsSub " = " line)) &&
  (containsSub "React.FC" line || containsSub ": FC" line ||
   containsSub ": React." line || containsSub "JSX.Element" line ||
   containsSub "ReactElement" line || containsSub "export function" line ||
   kwUpperMatch line.data || genericTagMatch line.data)

/-- `isMainComponent(lines, index)` on the suffix of lines starting at
`index`: extract the declared identifier from the first line, then return
true when a line at or after the declaration contains
`export default <name>`, or the declaration uses an `export function` form,
or the identifier matches the role-name regex (src lines 4303-4330). -/
def isMainComponentSuffix (suffix : List String) : Bool :=
  match suffix with
  | [] => false
  | raw :: _ =>
    match componentNameOf raw with
    | none => false
    | some name =>
      suffix.any (fun l => containsSub ("export default " ++ name) l) ||
      containsSub "export function" raw ||
      roleNameMatch name

def isMainComponent (lines : List String) (index : Nat) : Bool :=
  isMainComponentSuffix (lines.drop index)

/-- The information the default-export search of `isMainComponent`
contributes: whether some line at or after the declaration contains
`export default <declared identifier>`. -/
def defaultExportFlag (lines : List String) (i : Nat) : Bool :=
  match componentNameOf ((lines.drop i).headD "") with
  | some name => (lines.drop i).any (fun l => containsSub ("export default " ++ name) l)
  | none => false

/-- `findEndOfImport` (src 4255-4273) as an offset over the current suffix:
track the brace delta per line; stop on a line with `;` at depth `≤ 0`.
On the final line the in-loop return and the fall-off return coincide. -/
def importEndOff (brace : Int) : List String → Nat
  | [] => 0
  | [_] => 0
  | line :: rest =>
    let b := brace + (countCh '{' line : Int) - (countCh '}' line : Int)
    if containsSub ";" line && b ≤ 0 then 0 else 1 + importEndOff b rest

/-- `findEndOfTypeDefinition` (src 3406-3438) as an offset: a type alias
(no brace ever opened) ends at `;`, a braced form when the count returns
to zero. -/
def typeEndOff (brace : Int) (found : Bool) : List String → Nat
  | [] => 0
  | [_] => 0
  | line :: rest =>
    let found2 := found || (countCh '{' line ≠ 0)
    let b := brace + (countCh '{' line : Int) - (countCh '}' line : Int)
    if !found2 && containsSub ";" line then 0
    else if found2 && b = 0 then 0
    else 1 + typeEndOff b found2 rest

/-- `findEndOfConstant` (src 4099-4131) as an offset: `{`/`[` open,
`}`/`]` close; a simple constant ends at `;`, a bracketed one at `;` once
the depth is back to zero. -/
def constEndOff (brace : Int) (found : Bool) : List String → Nat
  | [] => 0
  | [_] => 0
  | line :: rest =>
    let found2 := found || line.data.any (fun c => c = '{' || c = '[')
    let b := brace + (countCh '{' line : Int) + (countCh '[' line : Int) -
      (countCh '}' line : Int) - (countCh ']' line : Int)
    if !found2 && containsSub ";" line then 0
    else if found2 && b = 0 && containsSub ";" line then 0
    else 1 + constEndOff b found2 rest

/-- `findEndOfFunction` (src 3440-3473) as an offset: a braceless arrow
ends at `;` (or at end of file, where the fall-off return coincides);
a braced body when the count returns to zero. -/
def funcEndOff (brace : Int) (found : Bool) : List String → Nat
  | [] => 0
  | [_] => 0
  | line :: rest =>
    let found2 := found || (countCh '{' line ≠ 0)
    let b := brace + (countCh '{' line : Int) - (countCh '}' line : Int)
    if containsSub "=>" line && !containsSub "\x7b" line && !found2 &&
        containsSub ";" line then 0
    else if found2 && b = 0 then 0
    else 1 + funcEndOff b found2 rest

inductive BKind where
  | imp | typ | konst | util | sub | mainK
  deriving Repr, DecidableEq

/-- One block delimited by the scan: the inclusive line range
`[start, stop]` and the rule that recognized it. -/
structure RBlock where
  start : Nat
  stop : Nat
  kind : BKind
  deriving Repr, DecidableEq

/-- The rule dispatch of the loop body at the current line (the head of
the suffix `l`): which rule fires and the end offset its `findEndOf*` loop
computes; `none` when no rule matches and the cursor just advances. -/
def blockAt (l : List String) : Option (Nat × BKind) :=
  match l with
  | [] => none
  | raw :: _ =>
    let line := jsTrim raw
    if strStartsWith "import" line then some (importEndOff 0 l, .imp)
    else if containsSub "interface " line || containsSub "type " line then
      some (typeEndOff 0 false l, .typ)
    else if strStartsWith "const " line && !isFunction line && !isComponent line then
      some (constEndOff 0 false l, .konst)
    else if isFunction line || isComponent line then
      some (funcEndOff 0 false l,
        if isComponent line then
          (if isMainComponentSuffix l then BKind.mainK else BKind.sub)
        else BKind.util)
    else none

/-- The `while (i < lines.length)` loop of `parseReactFile` (src
4134-4206): dispatch on the trimmed line, delimit the block with the
matching offset loop, and jump past it.  `fuel` bounds the iterations;
since the cursor advances by at least one line per step, `lines.length`
fuel makes the zero-fuel case unreachable, so with that fuel this is the
source loop. -/
def scanBlocksF : Nat → Nat → List String → List RBlock
  | 0, _, _ => []
  | _ + 1, _, [] => []
  | fuel + 1, i, raw :: rest =>
    match blockAt (raw :: rest) with
    | some (off, k) =>
      ⟨i, i + off, k⟩ :: scanBlocksF fuel (i + off + 1) ((raw :: rest).drop (off + 1))
    | none => scanBlocksF fuel (i + 1) rest

/-- The blocks `parseReactFile` delimits on a list of lines. -/
def reactBlocks (lines : List String) : List RBlock :=
  scanBlocksF lines.length 0 lines

/-- `lines.slice(startIndex, endIndex + 1).join('\n')` of `extractBlock`. -/
def blockText (lines : List String) (b : RBlock) : String :=
  String.intercalate "\n" ((lines.drop b.start).take (b.stop + 1 - b.start))

structure ParsedReact where
  imports : List String
  types : List String
  constants : List String
  utilities : List String
  subComponents : List String
  mainComponent : String
  deriving Repr, DecidableEq

/-- `parseReactFile(content)`: split into lines, scan the blocks, and push
each block's text onto the list for its category (`mainComponent` is an
assignment, so the last Main block wins), in scan order. -/
def parseReactFile (content : String) : ParsedReact :=
  let lines := (splitLines content.data).map (fun l => (⟨l⟩ : String))
  let blocks := reactBlocks lines
  blocks.foldl (fun acc b =>
    match b.kind with
    | .imp => { acc with imports := acc.imports ++ [blockText lines b] }
    | .typ => { acc with types := acc.types ++ [blockText lines b] }
    | .konst => { acc with constants := acc.constants ++ [blockText lines b] }
    | .util => { acc with utilities := acc.utilities ++ [blockText lines b] }
    | .sub => { acc with subComponents := acc.subComponents ++ [blockText lines b] }
    | .mainK => { acc with mainComponent := blockText lines b })
    ⟨[], [], [], [], [], ""⟩

/-! ## Classifier as a function of line text and default-export flag -/

inductive LineClass where
  | importRule | typeRule | constantRule | mainRule | subRule | utilityRule | skip
  deriving Repr, DecidableEq

/-- The decision `parseReactFile` takes at line `i`: which rule fires (and
for a component, Main versus Sub via `isMainComponent`). -/
def classifyAt (lines : List String) (i : Nat) : LineClass :=
  let raw := (lines.drop i).headD ""
  let line := jsTrim raw
  if strStartsWith "import" line then .importRule
  else if containsSub "interface " line || containsSub "type " line then .typeRule
  else if strStartsWith "const " line && !isFunction line && !isComponent line then
    .constantRule
  else if isFunction line || isComponent line then
    if isComponent line then
      if isMainComponent lines i then .mainRule else .subRule
    else .utilityRule
  else .skip

/-- The same decision computed from the raw line text and the
default-export flag alone. -/
def classifyPure (raw : String) (flag : Bool) : LineClass :=
  let line := jsTrim raw
  if strStartsWith "import" line then .importRule
  else if containsSub "interface " line || containsSub "type " line then .typeRule
  else if strStartsWith "const " line && !isFunction line && !isComponent line then
    .constantRule
  else if isFunction line || isComponent line then
    if isComponent line then
      if (componentNameOf raw).isSome &&
          (flag || containsSub "export function" raw ||
            roleNameMatch ((componentNameOf raw).getD "")) then .mainRule
      else .subRule
    else .utilityRule
  else .skip

/-- Modelled from the spec: "(a) its declared identifier is the file's
default export" — some line of the file is, after trimming, exactly the
statement `export default <name>` (with or without semicolon). -/
def isDefaultExportDecl (lines : List String) (name : String) : Bool :=
  lines.any (fun l =>
    jsTrim l = "export default " ++ name ++ ";" || jsTrim l = "export default " ++ name)

/-! ## Line predicates for the coverage claim -/

def nonBlankLine (l : String) : Bool :=
  jsTrim l ≠ ""

def nonCommentLine (l : String) : Bool :=
  !(strStartsWith "//" (jsTrim l) || strStartsWith "/*" (jsTrim l) ||
    strStartsWith "*" (jsTrim l))

/-- Net `{}`/`()`/`[]` counts are all zero, not counting delimiters inside
single-, double-, or backtick-quoted literals (escape sequences are not
modelled).  Quote characters are compared by code point. -/
def delimsBalancedAux : Option Char → Int → Int → Int → List Char → Bool
  | _, b1, b2, b3, [] => b1 = 0 && b2 = 0 && b3 = 0
  | some q, b1, b2, b3, c :: rest =>
    if c = q then delimsBalancedAux none b1 b2 b3 rest
    else delimsBalancedAux (some q) b1 b2 b3 rest
  | none, b1, b2, b3, c :: rest =>
    if c.toNat = 39 || c.toNat = 34 || c.toNat = 96 then
      delimsBalancedAux (some c) b1 b2 b3 rest
    else if c = '{' then delimsBalancedAux none (b1 + 1) b2 b3 rest
    else if c = '}' then delimsBalancedAux none (b1 - 1) b2 b3 rest
    else if c = '(' then delimsBalancedAux none b1 (b2 + 1) b3 rest
    else if c = ')' then delimsBalancedAux none b1 (b2 - 1) b3 rest
    else if c = '[' then delimsBalancedAux none b1 b2 (b3 + 1) rest
    else if c = ']' then delimsBalancedAux none b1 b2 (b3 - 1) rest
    else delimsBalancedAux none b1 b2 b3 rest

def delimsBalanced (content : String) : Bool :=
  delimsBalancedAux none 0 0 0 content.data

/-! ## Import dependency filter (src/refactor.ts lines 2875-2890, 4332-4377) -/

def headNotWord : List Char → Bool
  | [] => true
  | d :: _ => !isWordChar d

def boundaryOkPrev : Option Char → Bool
  | none => true
  | some c => !isWordChar c

/-- The character just before the match: the last of `pre`, or the carried
`prev` when `pre` is empty. -/
def prevCharOk (prev : Option Char) (pre : List Char) : Bool :=
  match pre.getLast? with
  | some c => !isWordChar c
  | none => boundaryOkPrev prev

/-- Scan for an occurrence of `name` whose neighbours are not word
characters; `prev` carries the character before the current position.
With `name` an identifier (word characters only) this is the test of
`new RegExp("\\b" + name + "\\b")`. -/
def wbAux (name : List Char) (prev : Option Char) : List Char → Bool
  | [] => false
  | s@(c :: rest) =>
    (boundaryOkPrev prev && leadsWith name s && headNotWord (s.drop name.length)) ||
      wbAux name (some c) rest

def wordBoundaryOccurs (name text : String) : Bool :=
  wbAux name.data none text.data

/-- `filterUsedTypes(allTypes, contentToAnalyze)`: keep the types whose
name-boundary regex matches the content. -/
def filterUsedTypes (allTypes : List String) (contentToAnalyze : String) : List String :=
  allTypes.filter (fun t => wordBoundaryOccurs t contentToAnalyze)

/-- The import clause shapes captured by the parsing regex of
`getRequiredImports`. -/
inductive ImportForm where
  | named (names : List String)
  | namespaceForm (name : String)
  | defaultForm (name : String)
  deriving Repr, DecidableEq

/-- `\s+`: require at least one whitespace character and skip the run. -/
def wsSplit (l : List Char) : Option (List Char) :=
  match l with
  | c :: _ => if isWsChar c then some (l.dropWhile isWsChar) else none
  | [] => none

/-- Generic single-character split, JS `s.split(sep)`. -/
def splitOnChar (sep : Char) : List Char → List (List Char)
  | [] => [[]]
  | c :: rest =>
    if c = sep then [] :: splitOnChar sep rest
    else
      match splitOnChar sep rest with
      | [] => [[c]]
      | s :: ss => (c :: s) :: ss

def headIsQuote : List Char → Bool
  | c :: _ => c.toNat = 39 || c.toNat = 34
  | [] => false

/-- The tail `\s+from\s+['\"]([^'\"]+)['\"]` of the import regex. -/
def parseFromPart (l : List Char) : Bool :=
  match wsSplit l with
  | none => false
  | some r1 =>
    if leadsWith "from".data r1 then
      match wsSplit (r1.drop 4) with
      | none => false
      | some r3 =>
        match r3 with
        | q :: rest3 =>
          (q.toNat = 39 || q.toNat = 34) &&
            (let inner := rest3.takeWhile (fun c => c.toNat ≠ 39 && c.toNat ≠ 34)
             !inner.isEmpty && headIsQuote (rest3.drop inner.length))
        | [] => false
    else false

/-- After the literal `import`: optional `type\s+`, then one of the three
clause alternatives, then the `from` part.  The optional `type` group is
taken greedily, as the regex engine does on well-formed import statements. -/
def parseAfterImport (l : List Char) : Option ImportForm :=
  match wsSplit l with
  | none => none
  | some l1 =>
    let l2 := if leadsWith "type".data l1 then
        match wsSplit (l1.drop 4) with
        | some r => r
        | none => l1
      else l1
    match l2 with
    | '{' :: afterBrace =>
      let inner := afterBrace.takeWhile (fun c => c ≠ '}')
      if inner.isEmpty then none
      else
        match afterBrace.drop inner.length with
        | '}' :: afterClose =>
          if parseFromPart afterClose then
            some (.named ((splitOnChar ',' inner).map (fun seg => jsTrim ⟨seg⟩)))
          else none
        | _ => none
    | '*' :: afterStar =>
      match wsSplit afterStar with
      | none => none
      | some a1 =>
        if leadsWith "as".data a1 then
          match wsSplit (a1.drop 2) with
          | none => none
          | some a3 =>
            let w := a3.takeWhile isWordChar
            if w.isEmpty then none
            else if parseFromPart (a3.drop w.length) then some (.namespaceForm ⟨w⟩)
            else none
        else none
    | _ =>
      let w := l2.takeWhile isWordChar
      if w.isEmpty then none
      else if parseFromPart (l2.drop w.length) then some (.defaultForm ⟨w⟩)
      else none

/-- `importStatement.match(regex)`: first position at which the import
pattern matches. -/
def parseImportChars : List Char → Option ImportForm
  | [] => none
  | l@(_ :: t) =>
    (if leadsWith "import".data l then parseAfterImport (l.drop 6) else none).orElse
      (fun _ => parseImportChars t)

def parseImportStatement (s : String) : Option ImportForm :=
  parseImportChars s.data

/-- First match of `/\s+as\s+\w+/` at this exact position, returning the
remainder after the matched span. -/
def matchAsAliasAt (l : List Char) : Option (List Char) :=
  let ws1 := l.takeWhile isWsChar
  if ws1.isEmpty then none
  else
    let a1 := l.drop ws1.length
    if leadsWith "as".data a1 then
      let a2 := a1.drop 2
      let ws2 := a2.takeWhile isWsChar
      if ws2.isEmpty then none
      else
        let a3 := a2.drop ws2.length
        let w := a3.takeWhile isWordChar
        if w.isEmpty then none else some (a3.drop w.length)
    else none

/-- JS `s.replace(/\s+as\s+\w+/, '')`: delete the first match. -/
def removeAsAlias : List Char → List Char
  | [] => []
  | c :: rest =>
    match matchAsAliasAt (c :: rest) with
    | some rem => rem
    | none => c :: removeAsAlias rest

/-- `imp.replace(/\s+as\s+\w+/, '').trim()` of `getRequiredImports`. -/
def cleanImportName (s : String) : String :=
  jsTrim ⟨removeAsAlias s.data⟩

/-- The usage test of `getRequiredImports`: for named imports, some cleaned
name occurs in the content as a plain substring (`content.includes`); for
namespace and default imports, the bound name occurs as a substring. -/
def importIsUsed (content : String) : ImportForm → Bool
  | .named names => names.any (fun n => containsSub (cleanImportName n) content)
  | .namespaceForm n => containsSub n content
  | .defaultForm n => containsSub n content

/-- `getRequiredImports(content, allImports)`: keep the import statements
that parse and whose imported names are used (an unparseable statement is
skipped, hence dropped). -/
def getRequiredImports (content : String) (allImports : List String) : List String :=
  allImports.filter (fun imp =>
    match parseImportStatement imp with
    | none => false
    | some form => importIsUsed content form)

/-! ## Case conversion (src/refactor.ts lines 4078-4084, 4492-4494) -/

/-- Upper-case the first character of a segment
(`part.charAt(0).toUpperCase() + part.slice(1)`). -/
def capitalizeSeg : List Char → List Char
  | [] => []
  | c :: rest => c.toUpper :: rest

/-- `extractMainComponentName(fileName)`: split on `-`, capitalize each
segment, join. -/
def extractMainComponentName (fileName : String) : String :=
  ⟨List.flatten ((splitOnChar '-' fileName.data).map capitalizeSeg)⟩

/-- Modelled from the spec: the reference export-identifier derivation —
split the name on hyphens, upper-case the first character of each segment,
concatenate. -/
def specPascalCase (s : String) : String :=
  ⟨List.flatten ((splitOnChar '-' s.data).map capitalizeSeg)⟩

/-- The global replace of `/(^|-)([a-z])/g` after the first character has
been handled: a `-` followed by a lower-case letter is replaced by the
upper-cased letter; everything else is copied. -/
def pascalGo : List Char → List Char
  | [] => []
  | ['-'] => ['-']
  | '-' :: d :: rest2 =>
    if d.isLower then d.toUpper :: pascalGo rest2 else '-' :: pascalGo (d :: rest2)
  | c :: rest => c :: pascalGo rest

/-- `toPascalCase(str)` = `str.replace(/(^|-)([a-z])/g, g => g.slice(-1).toUpperCase())`:
the `^` alternative can only fire at position zero. -/
def pascalChars (l : List Char) : List Char :=
  match l with
  | [] => []
  | c :: rest => if c.isLower then c.toUpper :: pascalGo rest else pascalGo (c :: rest)

def toPascalCase (s : String) : String :=
  ⟨pascalChars s.data⟩

/-- The hyphen-free interleaving used to reason about `splitOnChar '-'`. -/
def joinHyphen : List (List Char) → List Char
  | [] => []
  | [s] => s
  | s :: rest => s ++ '-' :: joinHyphen rest

def headIsLower : List Char → Bool
  | c :: _ => c.isLower
  | [] => false

/-! ## Theorems -/

theorem firstFailing_eq_none {p : String → Bool} {l : List String} :
    firstFailing p l = none ↔ ∀ f ∈ l, p f = true := by
  induction l with
  | nil => simp [firstFailing]
  | cons a t ih =>
    by_cases h : p a = true
    · simp [firstFailing, h, ih]
    · simp [firstFailing, h]

theorem firstFailing_eq_some {p : String → Bool} {l : List String} {f : String}
    (h : firstFailing p l = some f) : f ∈ l ∧ p f = false := by
  induction l with
  | nil => simp [firstFailing] at h
  | cons a t ih =>
    by_cases ha : p a = true
    · simp only [firstFailing, ha, if_true] at h
      rcases ih h with ⟨hm, hp⟩
      exact ⟨List.mem_cons_of_mem _ hm, hp⟩
    · simp only [firstFailing, ha, if_false] at h
      cases h
      exact ⟨List.mem_cons_self _ _, by simpa using ha⟩

theorem verify_success_iff (fs : FS) (l : List String) :
    (verifyRefactoring fs l).success = true ↔ ∀ f ∈ l, verifyChecks fs f = true := by
  unfold verifyRefactoring
  cases h1 : firstFailing (fun f => pathExists fs f) l with
  | some f =>
    rcases firstFailing_eq_some h1 with ⟨hm, hp⟩
    simp only [VerifyResult.mk.injEq]
    constructor
    · intro h; cases h
    · intro h
      have := h f hm
      unfold verifyChecks at this
      rw [hp] at this
      simp at this
  | none =>
    cases h2 : firstFailing (fun f => contentNonEmpty fs f) l with
    | some f =>
      rcases firstFailing_eq_some h2 with ⟨hm, hp⟩
      constructor
      · intro h; cases h
      · intro h
        have := h f hm
        unfold verifyChecks at this
        rw [hp] at this
        simp at this
    | none =>
      cases h3 : firstFailing (fun f => bracesBalanced fs f) l with
      | some f =>
        rcases firstFailing_eq_some h3 with ⟨hm, hp⟩
        constructor
        · intro h; cases h
        · intro h
          have := h f hm
          unfold verifyChecks at this
          rw [hp] at this
          simp at this
      | none =>
        simp only [true_iff]
        intro f hf
        have e1 := (firstFailing_eq_none.mp h1) f hf
        have e2 := (firstFailing_eq_none.mp h2) f hf
        have e3 := (firstFailing_eq_none.mp h3) f hf
        unfold verifyChecks
        rw [e1, e2, e3]
        rfl

/-- C4. `verifyRefactoring` succeeds exactly when every file in `newFiles`
exists, has non-empty trimmed content, and has balanced brace counts; on any
failure, the result carries a diagnostic naming an offending file together
with the failed check. -/
theorem C4_verifyRefactoring_characterization (fs : FS) (newFiles : List String) :
    ((verifyRefactoring fs newFiles).success = true ↔
      ∀ f ∈ newFiles,
        pathExists fs f = true ∧ contentNonEmpty fs f = true ∧ bracesBalanced fs f = true)
    ∧ ((verifyRefactoring fs newFiles).success = false →
      ∃ f ∈ newFiles, verifyChecks fs f = false ∧
        ((verifyRefactoring fs newFiles).error =
            some ("Created file does not exist: " ++ f) ∨
         (verifyRefactoring fs newFiles).error =
            some ("Created file is empty: " ++ f) ∨
         (verifyRefactoring fs newFiles).error =
            some ("Syntax error in file: " ++ f ++ " - unbalanced braces"))) := by
  constructor
  · rw [verify_success_iff fs newFiles]
    constructor
    · intro h f hf
      have := h f hf
      unfold verifyChecks at this
      simp only [Bool.and_eq_true] at this
      exact ⟨this.1.1, this.1.2, this.2⟩
    · intro h f hf
      rcases h f hf with ⟨h1, h2, h3⟩
      unfold verifyChecks
      rw [h1, h2, h3]
      rfl
  · intro hfail
    unfold verifyRefactoring at hfail ⊢
    cases h1 : firstFailing (fun f => pathExists fs f) newFiles with
    | some f =>
      rcases firstFailing_eq_some h1 with ⟨hm, hp⟩
      refine ⟨f, hm, ?_, ?_⟩
      · unfold verifyChecks
        rw [hp]
        rfl
      · exact Or.inl rfl
    | none =>
      rw [h1] at hfail
      cases h2 : firstFailing (fun f => contentNonEmpty fs f) newFiles with
      | some f =>
        rcases firstFailing_eq_some h2 with ⟨hm, hp⟩
        refine ⟨f, hm, ?_, ?_⟩
        · unfold verifyChecks
          rw [hp]
          simp
        · exact Or.inr (Or.inl rfl)
      | none =>
        rw [h2] at hfail
        cases h3 : firstFailing (fun f => bracesBalanced fs f) newFiles with
        | some f =>
          rcases firstFailing_eq_some h3 with ⟨hm, hp⟩
          refine ⟨f, hm, ?_, ?_⟩
          · unfold verifyChecks
            rw [hp]
            simp
          · exact Or.inr (Or.inr rfl)
        | none =>
          rw [h3] at hfail
          cases hfail

theorem C4_verifyRefactoring_characterization_witness :
    (verifyRefactoring fsVerifyEx ["a.ts"]).success = true :=
  (C4_verifyRefactoring_characterization fsVerifyEx ["a.ts"]).1.mpr (by decide)


theorem lookup_cons_self {β : Type} (k : String) (v : β) (t : List (String × β)) :
    List.lookup k ((k, v) :: t) = some v := by
  simp [List.lookup]

theorem lookup_cons_ne {β : Type} {q k : String} (h : q ≠ k) (v : β)
    (t : List (String × β)) :
    List.lookup q ((k, v) :: t) = List.lookup q t := by
  have hb : (q == k) = false := beq_eq_false_iff_ne.mpr h
  simp [List.lookup, hb]

theorem lookup_dropPath_self (p : String) (l : List (String × String)) :
    List.lookup p (dropPath p l) = none := by
  induction l with
  | nil => rfl
  | cons a t ih =>
    obtain ⟨k, v⟩ := a
    by_cases h : k = p
    · simpa [dropPath, h] using ih
    · rw [dropPath]
      simp only [h, if_false]
      rw [lookup_cons_ne (Ne.symm h) v, ih]

theorem lookup_dropPath_ne {q p : String} (h : q ≠ p) (l : List (String × String)) :
    List.lookup q (dropPath p l) = List.lookup q l := by
  induction l with
  | nil => rfl
  | cons a t ih =>
    obtain ⟨k, v⟩ := a
    by_cases hk : k = p
    · rw [dropPath]
      simp only [hk, if_true]
      rw [ih, lookup_cons_ne (hk ▸ h) v]
    · rw [dropPath]
      simp only [hk, if_false]
      by_cases hq : q = k
      · subst hq
        rw [lookup_cons_self, lookup_cons_self]
      · rw [lookup_cons_ne hq, lookup_cons_ne hq, ih]

theorem dropPath_of_lookup_none {p : String} {l : List (String × String)}
    (h : List.lookup p l = none) : dropPath p l = l := by
  induction l with
  | nil => rfl
  | cons a t ih =>
    obtain ⟨k, v⟩ := a
    by_cases hk : k = p
    · subst hk
      rw [lookup_cons_self] at h
      cases h
    · rw [lookup_cons_ne (Ne.symm hk) v] at h
      rw [dropPath]
      simp only [hk, if_false]
      rw [ih h]

theorem writePure_faults (ws : List (String × String)) (fs : FS) :
    (writePure fs ws).faults = fs.faults := by
  induction ws generalizing fs with
  | nil => rfl
  | cons a rest ih => exact ih _

theorem readFileF_writePure_notMem {p : String} {ws : List (String × String)}
    (h : p ∉ ws.map Prod.fst) (fs : FS) :
    readFileF (writePure fs ws) p = readFileF fs p := by
  induction ws generalizing fs with
  | nil => rfl
  | cons a rest ih =>
    obtain ⟨w, c⟩ := a
    simp only [List.map_cons, List.mem_cons, not_or] at h
    rw [writePure, ih h.2]
    unfold readFileF
    rw [lookup_cons_ne h.1 c, lookup_dropPath_ne h.1]

theorem writeAll_ok {fs : FS} (h : fs.faults = []) (ws : List (String × String)) :
    writeAll fs ws = .ok (writePure fs ws) := by
  induction ws generalizing fs with
  | nil => rfl
  | cons a rest ih =>
    obtain ⟨p, c⟩ := a
    have hcontains : fs.faults.contains p = false := by rw [h]; rfl
    rw [writeAll, writeFileF, hcontains]
    simp only [Bool.false_eq_true, if_false]
    exact ih h

theorem removePure_faults (l : List String) (fs : FS) :
    (removePure fs l).faults = fs.faults := by
  induction l generalizing fs with
  | nil => rfl
  | cons a rest ih => exact ih _

theorem removeCreatedFiles_ok {fs : FS} (h : fs.faults = []) (l : List String) :
    removeCreatedFiles fs l = .ok (removePure fs l) := by
  induction l generalizing fs with
  | nil => rfl
  | cons f rest ih =>
    rw [removeCreatedFiles, removePure]
    by_cases hex : pathExists fs f = true
    · have hcontains : fs.faults.contains f = false := by rw [h]; rfl
      rw [hex, removeF, hcontains]
      simp only [Bool.false_eq_true, if_false, if_true]
      exact ih h
    · rw [Bool.not_eq_true] at hex
      rw [hex]
      simp only [Bool.false_eq_true, if_false]
      unfold pathExists at hex
      have hnone : List.lookup f fs.files = none := by
        cases hl : List.lookup f fs.files with
        | none => rfl
        | some v => rw [hl] at hex; cases hex
      rw [dropPath_of_lookup_none hnone]
      exact ih h

theorem readFileF_removePure_notMem {q : String} {l : List String} (h : q ∉ l)
    (fs : FS) : readFileF (removePure fs l) q = readFileF fs q := by
  induction l generalizing fs with
  | nil => rfl
  | cons a rest ih =>
    simp only [List.mem_cons, not_or] at h
    rw [removePure, ih h.2]
    unfold readFileF
    exact lookup_dropPath_ne h.1 fs.files

theorem readFileF_removePure_mem {f : String} {l : List String} (h : f ∈ l)
    (fs : FS) : readFileF (removePure fs l) f = none := by
  induction l generalizing fs with
  | nil => cases h
  | cons a rest ih =>
    by_cases hrest : f ∈ rest
    · exact ih hrest _
    · rcases List.mem_cons.mp h with rfl | hmem
      · rw [removePure, readFileF_removePure_notMem hrest]
        unfold readFileF
        exact lookup_dropPath_self f fs.files
      · exact absurd hmem hrest

/-- C1. When verification fails on the created files, the transaction rolls
back, in every branch — including those that overwrite the original file
(`refactorGraphQLFile` writes `filePath` without tracking it, src 2597, and
`refactorTypesFile` tracks `index.ts` = `filePath`, src 2675-2678), since
`writes` may bind `filePath` and `pushed` may contain it: every created
(tracked) file other than the original is gone, the backup file survives
holding the original bytes, the original file again holds its pre-run
content byte-for-byte, and the returned result has `success = false`
carrying the verification diagnostic. -/
theorem C1_verification_failure_rolls_back
    (filePath backupPath orig : String) (writes : List (String × String))
    (pushed : List String) (sugg : Suggestions) (fs : FS)
    (horig : readFileF fs filePath = some orig)
    (hfaults : fs.faults = [])
    (hbpW : backupPath ∉ writes.map Prod.fst)
    (hbpP : backupPath ∉ pushed)
    (hbpfp : backupPath ≠ filePath)
    (hverify : (verifyRefactoring (writePure (backedUp fs backupPath orig) writes)
        pushed).success = false) :
    ∃ fsOut : FS,
      performRefactoring filePath writes pushed backupPath sugg fs = .ok (fsOut,
        ⟨filePath, [], 0, false,
          (verifyRefactoring (writePure (backedUp fs backupPath orig) writes)
            pushed).error, none⟩)
      ∧ (∀ f ∈ pushed, f ≠ filePath → readFileF fsOut f = none)
      ∧ readFileF fsOut backupPath = some orig
      ∧ readFileF fsOut filePath = some orig := by
  have hcontbp : fs.faults.contains backupPath = false := by rw [hfaults]; rfl
  have hcopy : copyF fs filePath backupPath = .ok (backedUp fs backupPath orig) := by
    unfold copyF
    rw [horig]
    unfold writeFileF
    simp only [hcontbp, Bool.false_eq_true, if_false]
    rfl
  have hfs1faults : (backedUp fs backupPath orig).faults = [] := hfaults
  have hwr : writeAll (backedUp fs backupPath orig) writes =
      .ok (writePure (backedUp fs backupPath orig) writes) :=
    writeAll_ok hfs1faults writes
  have hfs2faults : (writePure (backedUp fs backupPath orig) writes).faults = [] := by
    rw [writePure_faults]; exact hfs1faults
  have hrm : removeCreatedFiles (writePure (backedUp fs backupPath orig) writes)
      pushed =
      .ok (removePure (writePure (backedUp fs backupPath orig) writes) pushed) :=
    removeCreatedFiles_ok hfs2faults _
  have hbk1 : readFileF (backedUp fs backupPath orig) backupPath = some orig := by
    unfold backedUp readFileF
    exact lookup_cons_self backupPath orig _
  have hbk3 : readFileF (removePure (writePure (backedUp fs backupPath orig) writes)
      pushed) backupPath = some orig := by
    rw [readFileF_removePure_notMem hbpP, readFileF_writePure_notMem hbpW]
    exact hbk1
  have hex3 : pathExists (removePure (writePure (backedUp fs backupPath orig) writes)
      pushed) backupPath = true := by
    unfold pathExists
    have : List.lookup backupPath (removePure (writePure (backedUp fs backupPath orig)
        writes) pushed).files = some orig := hbk3
    rw [this]
    rfl
  have hfs3faults : (removePure (writePure (backedUp fs backupPath orig) writes)
      pushed).faults = [] := by
    rw [removePure_faults]; exact hfs2faults
  have hcontfp : (removePure (writePure (backedUp fs backupPath orig) writes)
      pushed).faults.contains filePath = false := by
    rw [hfs3faults]; rfl
  have hrestore : copyF (removePure (writePure (backedUp fs backupPath orig) writes)
      pushed) backupPath filePath =
      .ok ⟨(filePath, orig) :: dropPath filePath
            (removePure (writePure (backedUp fs backupPath orig) writes)
              pushed).files,
          (removePure (writePure (backedUp fs backupPath orig) writes)
            pushed).faults⟩ := by
    unfold copyF
    rw [hbk3]
    unfold writeFileF
    simp only [hcontfp, Bool.false_eq_true, if_false]
  have hroll : rollbackRefactoring (writePure (backedUp fs backupPath orig) writes)
      filePath pushed backupPath =
      .ok ⟨(filePath, orig) :: dropPath filePath
            (removePure (writePure (backedUp fs backupPath orig) writes)
              pushed).files,
          (removePure (writePure (backedUp fs backupPath orig) writes)
            pushed).faults⟩ := by
    unfold rollbackRefactoring
    rw [hrm]
    simp only [hex3, if_true]
    exact hrestore
  refine ⟨⟨(filePath, orig) :: dropPath filePath
      (removePure (writePure (backedUp fs backupPath orig) writes)
        pushed).files,
      (removePure (writePure (backedUp fs backupPath orig) writes)
        pushed).faults⟩, ?_, ?_, ?_, ?_⟩
  · unfold performRefactoring
    rw [hcopy]
    simp only []
    rw [hwr]
    simp only [hverify, Bool.false_eq_true, if_false]
    rw [hroll]
  · intro f hf hne
    unfold readFileF
    rw [lookup_cons_ne hne, lookup_dropPath_ne hne]
    exact readFileF_removePure_mem hf _
  · unfold readFileF
    rw [lookup_cons_ne hbpfp, lookup_dropPath_ne hbpfp]
    exact hbk3
  · unfold readFileF
    exact lookup_cons_self filePath orig _

theorem C1_verification_failure_rolls_back_witness :
    ∃ fsOut : FS,
      performRefactoring "a.ts" [("a-part1.ts", ""), ("a.ts", "fwd")]
          ["a-part1.ts"] "b.backup" ⟨[], 0, []⟩ fsTxEx = .ok (fsOut,
        ⟨"a.ts", [], 0, false,
          (verifyRefactoring (writePure (backedUp fsTxEx "b.backup" "orig")
              [("a-part1.ts", ""), ("a.ts", "fwd")])
            ["a-part1.ts"]).error, none⟩)
      ∧ (∀ f ∈ ["a-part1.ts"], f ≠ "a.ts" → readFileF fsOut f = none)
      ∧ readFileF fsOut "b.backup" = some "orig"
      ∧ readFileF fsOut "a.ts" = some "orig" :=
  C1_verification_failure_rolls_back "a.ts" "b.backup" "orig"
    [("a-part1.ts", ""), ("a.ts", "fwd")] ["a-part1.ts"] ⟨[], 0, []⟩ fsTxEx
    (by decide) rfl (by decide) (by decide) (by decide) (by decide)

/-- C2 (amended). A failure raised inside `performRefactoring` — including a
failed restore during rollback — does NOT reach the engine's caller as a
raised error: `refactorFile` catches every such raise and converts it into
an ordinary `RefactorResult` with `success = false` and the failure text as
`error`. -/
theorem C2_rollback_failure_becomes_failed_result
    (synth : String → List (String × String) × List String)
    (analyze : String → String → Suggestions)
    (filePath backupPath content msg : String) (fs fsErr : FS)
    (hread : readFileF fs filePath = some content)
    (hperf : performRefactoring filePath (synth content).1 (synth content).2
        backupPath (analyze filePath content) fs = .error (fsErr, msg)) :
    refactorFile synth analyze filePath backupPath fs =
      .ok (fsErr, ⟨filePath, [], 0, false, some msg, none⟩) := by
  unfold refactorFile
  rw [hread]
  show (match performRefactoring filePath (synth content).1 (synth content).2
      backupPath (analyze filePath content) fs with
    | .ok r => Except.ok r
    | .error (fs', msg) =>
      Except.ok (fs', ⟨filePath, [], 0, false, some msg, none⟩)) = _
  rw [hperf]

theorem C2_rollback_failure_becomes_failed_result_witness :
    refactorFile synthEmpty analyzeTriv "a.ts" "b.backup" fsRbEx =
      .ok (fsRbOut, ⟨"a.ts", [], 0, false, some "EIO: a.ts", none⟩) :=
  C2_rollback_failure_becomes_failed_result synthEmpty analyzeTriv
    "a.ts" "b.backup" "orig" "EIO: a.ts" fsRbEx fsRbOut (by decide) rfl

/-- C2 counterexample. In the `fsRbEx` scenario the restore during rollback
fails (the original path rejects writes), so `performRefactoring` raises —
yet `refactorFile` returns an ordinary result with `success = false`, so the
rollback failure is NOT distinguishable from a normal failed result by the
external caller, contradicting the claim. -/
theorem C2_rollback_failure_counterexample :
    performRefactoring "a.ts" [("a-part1.ts", "")] ["a-part1.ts"] "b.backup"
        ⟨[], 0, []⟩ fsRbEx =
      .error (fsRbOut, "EIO: a.ts")
    ∧ refactorFile synthEmpty analyzeTriv "a.ts" "b.backup" fsRbEx =
      .ok (fsRbOut, ⟨"a.ts", [], 0, false, some "EIO: a.ts", none⟩) :=
  ⟨rfl, rfl⟩

/-- C9. With `dryRun = true`, the run loop performs no file-system mutation
at all — the store is returned unchanged, so no backup is created and no
file is written, overwritten, or deleted — and each file's result is pure
analysis data (suggested files, estimated reduction) with `success = true`
whenever the target files exist. -/
theorem C9_dry_run_no_mutation
    (synth : String → List (String × String) × List String)
    (analyze : String → String → Suggestions) (opts : RunOptions)
    (backupPathOf : String → String) (fs : FS) (files : List FileToRefactor)
    (hdry : opts.dryRun = true) :
    (runLoop synth analyze opts backupPathOf fs files).1 = fs
    ∧ (runLoop synth analyze opts backupPathOf fs files).2 =
        files.map (dryRunResult analyze fs)
    ∧ ((∀ f ∈ files, pathExists fs f.path = true) →
        ∀ r ∈ (runLoop synth analyze opts backupPathOf fs files).2,
          r.success = true ∧ r.error = none) := by
  induction files with
  | nil =>
    refine ⟨rfl, rfl, ?_⟩
    intro _ r hr
    cases hr
  | cons file rest ih =>
    rw [runLoop]
    simp only [hdry, if_true]
    refine ⟨ih.1, ?_, ?_⟩
    · rw [List.map_cons, ih.2.1]
    · intro hex r hr
      rcases List.mem_cons.mp hr with rfl | hmem
      · have hp := hex file (List.mem_cons_self _ _)
        unfold pathExists at hp
        rcases Option.isSome_iff_exists.mp hp with ⟨c, hc⟩
        unfold dryRunResult
        rw [show readFileF fs file.path = some c from hc]
        exact ⟨rfl, rfl⟩
      · exact ih.2.2 (fun f hf => hex f (List.mem_cons_of_mem _ hf)) r hmem

theorem C9_dry_run_no_mutation_witness :
    (runLoop synthEmpty analyzeTriv ⟨true, true⟩ (fun p => p ++ ".backup")
        fsVerifyEx [⟨"a.ts", 500, "react"⟩]).1 = fsVerifyEx
    ∧ (runLoop synthEmpty analyzeTriv ⟨true, true⟩ (fun p => p ++ ".backup")
        fsVerifyEx [⟨"a.ts", 500, "react"⟩]).2 =
        [⟨"a.ts", 500, "react"⟩].map (dryRunResult analyzeTriv fsVerifyEx)
    ∧ ((∀ f ∈ [(⟨"a.ts", 500, "react"⟩ : FileToRefactor)],
          pathExists fsVerifyEx f.path = true) →
        ∀ r ∈ (runLoop synthEmpty analyzeTriv ⟨true, true⟩
            (fun p => p ++ ".backup") fsVerifyEx [⟨"a.ts", 500, "react"⟩]).2,
          r.success = true ∧ r.error = none) :=
  C9_dry_run_no_mutation synthEmpty analyzeTriv ⟨true, true⟩
    (fun p => p ++ ".backup") fsVerifyEx [⟨"a.ts", 500, "react"⟩] rfl

/-- C10. Every file selected by `scan` has strictly more lines than the
configured `maxLines`; a file whose line count equals `maxLines` exactly is
never selected. -/
theorem C10_scan_strictly_over_threshold
    (candidates : List String) (maxLines : Nat) (framework : String) (fs : FS) :
    (∀ f ∈ scan candidates maxLines framework fs, maxLines < f.lines)
    ∧ (∀ p, lineCount ((readFileF fs p).getD "") = maxLines →
        ∀ f ∈ scan candidates maxLines framework fs, f.path ≠ p) := by
  have hshape : ∀ f ∈ scan candidates maxLines framework fs,
      f.lines = lineCount ((readFileF fs f.path).getD "") ∧ maxLines < f.lines := by
    intro f hf
    unfold scan at hf
    rcases List.mem_filterMap.mp hf with ⟨p, _, hsome⟩
    dsimp only at hsome
    by_cases hc : maxLines < lineCount ((readFileF fs p).getD "")
    · rw [if_pos hc] at hsome
      cases hsome
      exact ⟨rfl, hc⟩
    · rw [if_neg hc] at hsome
      cases hsome
  constructor
  · intro f hf
    exact (hshape f hf).2
  · intro p hp f hf hpath
    rcases hshape f hf with ⟨hl, hlt⟩
    rw [hpath, hp] at hl
    rw [hl] at hlt
    exact lt_irrefl _ hlt

theorem C10_scan_strictly_over_threshold_witness :
    2 < (⟨"a.ts", 3, "react"⟩ : FileToRefactor).lines :=
  (C10_scan_strictly_over_threshold ["a.ts"] 2 "react" fsScanEx).1
    ⟨"a.ts", 3, "react"⟩ (by decide)

theorem importEndOff_lt : ∀ (l : List String) (b : Int), l ≠ [] →
    importEndOff b l < l.length := by
  intro l
  induction l with
  | nil => intro b h; exact absurd rfl h
  | cons x rest ih =>
    intro b _
    cases rest with
    | nil => simp [importEndOff]
    | cons y t =>
      rw [importEndOff]
      split
      · simp
      · have := ih (b + (countCh '{' x : Int) - countCh '}' x) (List.cons_ne_nil y t)
        simp only [List.length_cons] at this ⊢
        omega
      · exact List.cons_ne_nil y t

theorem typeEndOff_lt : ∀ (l : List String) (b : Int) (found : Bool), l ≠ [] →
    typeEndOff b found l < l.length := by
  intro l
  induction l with
  | nil => intro b found h; exact absurd rfl h
  | cons x rest ih =>
    intro b found _
    cases rest with
    | nil => simp [typeEndOff]
    | cons y t =>
      rw [typeEndOff]
      split
      · simp
      · split
        · simp
        · have := ih (b + (countCh '{' x : Int) - countCh '}' x)
            (found || (countCh '{' x ≠ 0 : Bool)) (List.cons_ne_nil y t)
          simp only [List.length_cons] at this ⊢
          omega
      · exact List.cons_ne_nil y t

theorem constEndOff_lt : ∀ (l : List String) (b : Int) (found : Bool), l ≠ [] →
    constEndOff b found l < l.length := by
  intro l
  induction l with
  | nil => intro b found h; exact absurd rfl h
  | cons x rest ih =>
    intro b found _
    cases rest with
    | nil => simp [constEndOff]
    | cons y t =>
      rw [constEndOff]
      split
      · simp
      · split
        · simp
        · have := ih (b + (countCh '{' x : Int) + (countCh '[' x : Int) -
              (countCh '}' x : Int) - (countCh ']' x : Int))
              (found || x.data.any (fun c => c = '{' || c = '[')) (List.cons_ne_nil y t)
          simp only [List.length_cons] at this ⊢
          omega
      · exact List.cons_ne_nil y t

theorem funcEndOff_lt : ∀ (l : List String) (b : Int) (found : Bool), l ≠ [] →
    funcEndOff b found l < l.length := by
  intro l
  induction l with
  | nil => intro b found h; exact absurd rfl h
  | cons x rest ih =>
    intro b found _
    cases rest with
    | nil => simp [funcEndOff]
    | cons y t =>
      rw [funcEndOff]
      split
      · simp
      · split
        · simp
        · have := ih (b + (countCh '{' x : Int) - countCh '}' x)
            (found || (countCh '{' x ≠ 0 : Bool)) (List.cons_ne_nil y t)
          simp only [List.length_cons] at this ⊢
          omega
      · exact List.cons_ne_nil y t

theorem blockAt_off_lt {l : List String} {off : Nat} {k : BKind}
    (h : blockAt l = some (off, k)) : off < l.length := by
  cases l with
  | nil => simp [blockAt] at h
  | cons raw rest =>
    rw [blockAt] at h
    split at h
    · rcases Option.some.inj h with h'
      cases h'
      exact importEndOff_lt _ 0 (by simp)
    · split at h
      · rcases Option.some.inj h with h'
        cases h'
        exact typeEndOff_lt _ 0 false (by simp)
      · split at h
        · rcases Option.some.inj h with h'
          cases h'
          exact constEndOff_lt _ 0 false (by simp)
        · split at h
          · rcases Option.some.inj h with h'
            cases h'
            exact funcEndOff_lt _ 0 false (by simp)
          · cases h

theorem scanBlocksF_bounds : ∀ (fuel i : Nat) (l : List String) (b : RBlock),
    b ∈ scanBlocksF fuel i l →
    i ≤ b.start ∧ b.start ≤ b.stop ∧ b.stop < i + l.length := by
  intro fuel
  induction fuel with
  | zero => intro i l b h; simp [scanBlocksF] at h
  | succ fuel ih =>
    intro i l b h
    cases l with
    | nil => simp [scanBlocksF] at h
    | cons raw rest =>
      rw [scanBlocksF] at h
      cases hblock : blockAt (raw :: rest) with
      | some p =>
        obtain ⟨off, k⟩ := p
        rw [hblock] at h
        have hoff : off < (raw :: rest).length := blockAt_off_lt hblock
        rcases List.mem_cons.mp h with rfl | hmem
        · exact ⟨le_refl _, Nat.le_add_right _ _, by
            simp only [List.length_cons] at hoff ⊢
            omega⟩
        · have := ih (i + off + 1) _ b hmem
          rw [List.length_drop] at this
          refine ⟨by omega, this.2.1, ?_⟩
          have h2 := this.2.2
          simp only [List.length_cons] at hoff h2 ⊢
          omega
      | none =>
        rw [hblock] at h
        have := ih (i + 1) rest b h
        refine ⟨by omega, this.2.1, ?_⟩
        have h2 := this.2.2
        simp only [List.length_cons]
        omega

theorem scanBlocksF_pairwise : ∀ (fuel i : Nat) (l : List String),
    List.Pairwise (fun a b => a.stop < b.start) (scanBlocksF fuel i l) := by
  intro fuel
  induction fuel with
  | zero => intro i l; simp [scanBlocksF]
  | succ fuel ih =>
    intro i l
    cases l with
    | nil => simp [scanBlocksF]
    | cons raw rest =>
      rw [scanBlocksF]
      cases hblock : blockAt (raw :: rest) with
      | some p =>
        obtain ⟨off, k⟩ := p
        refine List.Pairwise.cons ?_ (ih _ _)
        intro b hb
        have := scanBlocksF_bounds fuel (i + off + 1) _ b hb
        simp only []
        omega
      | none => exact ih _ _

/-- C3 (amended). The blocks `parseReactFile` delimits are well-formed,
pairwise non-overlapping line ranges listed in increasing order, so no line
belongs to more than one block; full coverage of every non-blank,
non-comment line does not hold (see the counterexample). -/
theorem C3_scanner_blocks_disjoint (lines : List String) :
    List.Pairwise (fun a b => a.stop < b.start) (reactBlocks lines)
    ∧ ∀ b ∈ reactBlocks lines, b.start ≤ b.stop ∧ b.stop < lines.length := by
  constructor
  · exact scanBlocksF_pairwise _ 0 _
  · intro b hb
    have := scanBlocksF_bounds _ 0 _ b hb
    exact ⟨this.2.1, by simpa using this.2.2⟩

theorem C3_scanner_blocks_disjoint_witness :
    (⟨0, 0, .konst⟩ : RBlock).start ≤ (⟨0, 0, .konst⟩ : RBlock).stop
    ∧ (⟨0, 0, .konst⟩ : RBlock).stop < (["const x = 1;"] : List String).length :=
  (C3_scanner_blocks_disjoint ["const x = 1;"]).2 ⟨0, 0, .konst⟩ (by decide)

/-- C3 counterexample. A line with fully balanced delimiters that is
neither blank nor a comment (`export default Foo;`) is recognized by no
rule, so the scanner emits no block covering it: the emitted blocks do not
jointly cover every non-blank, non-comment line. -/
theorem C3_coverage_counterexample :
    reactBlocks ["export default Foo;"] = []
    ∧ nonBlankLine "export default Foo;" = true
    ∧ nonCommentLine "export default Foo;" = true
    ∧ delimsBalanced "export default Foo;" = true := by
  refine ⟨?_, by decide, by decide, by decide⟩
  decide

/-- C6 (amended). A component block is classified Main exactly when the
declaration line yields an identifier and (a') some line at or after the
declaration contains the substring `export default <name>` — not
necessarily a default export of that very identifier — or (b) the
declaration line contains `export function`, or (c) the identifier matches
the role-name regex. -/
theorem C6_main_component_characterization (lines : List String) (index : Nat) :
    isMainComponent lines index = true ↔
      ∃ name : String, componentNameOf ((lines.drop index).headD "") = some name ∧
        ((lines.drop index).any (fun l => containsSub ("export default " ++ name) l) = true
         ∨ containsSub "export function" ((lines.drop index).headD "") = true
         ∨ roleNameMatch name = true) := by
  unfold isMainComponent
  cases hdrop : lines.drop index with
  | nil =>
    constructor
    · intro h
      cases h
    · intro ⟨name, hname, _⟩
      simp only [List.headD_nil] at hname
      cases hname
  | cons raw rest =>
    simp only [List.headD_cons]
    rw [isMainComponentSuffix]
    cases hname : componentNameOf raw with
    | none =>
      constructor
      · intro h
        cases h
      · intro ⟨name, hname2, _⟩
        exact Option.noConfusion hname2
    | some name =>
      constructor
      · intro h
        refine ⟨name, rfl, ?_⟩
        rcases Bool.or_eq_true _ _ |>.mp h with h1 | h2
        · rcases Bool.or_eq_true _ _ |>.mp h1 with ha | hb
          · exact Or.inl ha
          · exact Or.inr (Or.inl hb)
        · exact Or.inr (Or.inr h2)
      · intro ⟨name2, hname2, hcond⟩
        cases Option.some.inj hname2
        show (((raw :: rest).any fun l => containsSub ("export default " ++ name) l) ||
          containsSub "export function" raw || roleNameMatch name) = true
        rcases hcond with ha | hb | hc
        · rw [ha]
          simp
        · rw [hb]
          simp
        · rw [hc]
          simp

theorem C6_main_component_characterization_witness :
    ∃ name : String,
      componentNameOf ((["export function DataTable()"].drop 0).headD "") =
        some name ∧
      (((["export function DataTable()"].drop 0).any
          (fun l => containsSub ("export default " ++ name) l) = true)
       ∨ containsSub "export function"
          ((["export function DataTable()"].drop 0).headD "") = true
       ∨ roleNameMatch name = true) :=
  (C6_main_component_characterization ["export function DataTable()"] 0).mp
    (by decide)

/-- C6 counterexample. `Foo` is a component whose identifier is NOT the
file's default export (the default export is `FooBar`), is not declared
with `export function`, and matches no role suffix — yet the substring
search `lines[i].includes("export default Foo")` fires on
`export default FooBar;`, so the code classifies `Foo` as Main, refuting
the claimed iff. -/
theorem C6_main_component_counterexample :
    isMainComponent ["const Foo = () => x;", "export default FooBar;"] 0 = true
    ∧ componentNameOf "const Foo = () => x;" = some "Foo"
    ∧ isComponent (jsTrim "const Foo = () => x;") = true
    ∧ isDefaultExportDecl ["const Foo = () => x;", "export default FooBar;"] "Foo"
        = false
    ∧ containsSub "export function" "const Foo = () => x;" = false
    ∧ roleNameMatch "Foo" = false := by
  decide

theorem isMainComponent_factor (lines : List String) (i : Nat) :
    isMainComponent lines i =
      ((componentNameOf ((lines.drop i).headD "")).isSome &&
        (defaultExportFlag lines i ||
         containsSub "export function" ((lines.drop i).headD "") ||
         roleNameMatch ((componentNameOf ((lines.drop i).headD "")).getD ""))) := by
  unfold isMainComponent defaultExportFlag
  cases hdrop : lines.drop i with
  | nil =>
    rfl
  | cons raw rest =>
    simp only [List.headD_cons]
    rw [isMainComponentSuffix]
    cases hname : componentNameOf raw with
    | none => rfl
    | some name =>
      simp [Bool.or_assoc]

/-- C8 (amended). Classification is deterministic and free of mutable
state, but the category is a pure function of the block's line text and the
default-export FLAG — whether some line at or after the declaration
contains the substring `export default <name>` — not of the text plus the
file-level default-export declaration alone (the flag is position
sensitive; see the counterexample).  Any two runs over any two files agree
whenever the block's line text and that flag agree, so classification
cannot depend on iteration order or mutable instance state. -/
theorem C8_classification_deterministic :
    (∀ (lines : List String) (i : Nat),
      classifyAt lines i =
        classifyPure ((lines.drop i).headD "") (defaultExportFlag lines i))
    ∧ (∀ (L1 L2 : List String) (i1 i2 : Nat),
        (L1.drop i1).headD "" = (L2.drop i2).headD "" →
        defaultExportFlag L1 i1 = defaultExportFlag L2 i2 →
        classifyAt L1 i1 = classifyAt L2 i2) := by
  have hfac : ∀ (lines : List String) (i : Nat),
      classifyAt lines i =
        classifyPure ((lines.drop i).headD "") (defaultExportFlag lines i) := by
    intro lines i
    unfold classifyAt classifyPure
    rw [isMainComponent_factor]
  refine ⟨hfac, ?_⟩
  intro L1 L2 i1 i2 h1 h2
  rw [hfac L1 i1, hfac L2 i2, h1, h2]

theorem C8_classification_deterministic_witness :
    classifyAt ["const Foo = () => x;", "export default Foo;"] 0 =
      classifyAt ["// header", "const Foo = () => x;", "export default Foo;"] 1 :=
  C8_classification_deterministic.2
    ["const Foo = () => x;", "export default Foo;"]
    ["// header", "const Foo = () => x;", "export default Foo;"]
    0 1 (by decide) (by decide)

theorem leadsWith_iff {n l : List Char} :
    leadsWith n l = true ↔ ∃ s, l = n ++ s := by
  induction n generalizing l with
  | nil =>
    simp [leadsWith]
  | cons a n' ih =>
    cases l with
    | nil =>
      simp [leadsWith]
    | cons b l' =>
      rw [leadsWith]
      simp only [Bool.and_eq_true, decide_eq_true_eq]
      constructor
      · intro ⟨hab, hl⟩
        rcases ih.mp hl with ⟨s, hs⟩
        exact ⟨s, by rw [hab, hs]; rfl⟩
      · intro ⟨s, hs⟩
        rw [List.cons_append] at hs
        cases hs
        exact ⟨rfl, ih.mpr ⟨s, rfl⟩⟩

theorem prevCharOk_cons (prev : Option Char) (c : Char) (pre : List Char) :
    prevCharOk prev (c :: pre) = prevCharOk (some c) pre := by
  cases pre with
  | nil => rfl
  | cons d ds =>
    unfold prevCharOk
    rw [List.getLast?_cons_cons]
    cases h : (d :: ds).getLast? with
    | some e => rfl
    | none => simp at h

theorem wbAux_iff {name : List Char} (hname : name ≠ []) :
    ∀ (prev : Option Char) (text : List Char),
      wbAux name prev text = true ↔
        ∃ pre suf : List Char, text = pre ++ name ++ suf ∧
          prevCharOk prev pre = true ∧ headNotWord suf = true := by
  intro prev text
  induction text generalizing prev with
  | nil =>
    rw [wbAux]
    simp only [Bool.false_eq_true, false_iff, not_exists]
    intro pre suf h
    rcases h with ⟨heq, -, -⟩
    rcases List.append_eq_nil.mp heq.symm with ⟨h1, -⟩
    rcases List.append_eq_nil.mp h1 with ⟨-, hn⟩
    exact hname hn
  | cons c rest ih =>
    rw [wbAux]
    simp only [Bool.or_eq_true, Bool.and_eq_true]
    constructor
    · intro h
      rcases h with ⟨⟨hprev, hlead⟩, hafter⟩ | ht
      · rcases leadsWith_iff.mp hlead with ⟨suf, hsuf⟩
        refine ⟨[], suf, by simpa using hsuf, by simpa [prevCharOk] using hprev, ?_⟩
        rw [hsuf, List.drop_left] at hafter
        exact hafter
      · rcases (ih (some c)).mp ht with ⟨pre, suf, heq, hpre, hafter⟩
        exact ⟨c :: pre, suf, by rw [heq]; rfl,
          by rw [prevCharOk_cons]; exact hpre, hafter⟩
    · intro ⟨pre, suf, heq, hpre, hafter⟩
      cases pre with
      | nil =>
        simp only [List.nil_append] at heq
        refine Or.inl ⟨⟨by simpa [prevCharOk] using hpre, ?_⟩, ?_⟩
        · exact leadsWith_iff.mpr ⟨suf, heq⟩
        · rw [heq, List.drop_left]
          exact hafter
      | cons d pre' =>
        rw [List.cons_append, List.cons_append] at heq
        injection heq with hdc hrest
        subst hdc
        refine Or.inr ((ih (some c)).mpr ⟨pre', suf, hrest, ?_, hafter⟩)
        rw [← prevCharOk_cons prev]
        exact hpre

/-- C5 (amended). `filterUsedTypes` retains a type name exactly when it
occurs in the content as a whole identifier (neighbouring characters are
not word characters) — the claim holds for it; `getRequiredImports`,
however, retains an import exactly when its statement parses and one of the
cleaned imported names occurs in the group text as a PLAIN SUBSTRING
(`content.includes`), with no boundary requirement — see the
counterexample. -/
theorem C5_import_filter_characterization :
    (∀ (allTypes : List String) (content t : String),
      t.data ≠ [] → (∀ c ∈ t.data, isWordChar c = true) →
      (t ∈ filterUsedTypes allTypes content ↔
        t ∈ allTypes ∧ ∃ pre suf : List Char,
          content.data = pre ++ t.data ++ suf ∧
          prevCharOk none pre = true ∧ headNotWord suf = true))
    ∧ (∀ (allImports : List String) (content imp : String),
      imp ∈ getRequiredImports content allImports ↔
        imp ∈ allImports ∧ ∃ form, parseImportStatement imp = some form ∧
          importIsUsed content form = true) := by
  constructor
  · intro allTypes content t ht _
    unfold filterUsedTypes
    rw [List.mem_filter]
    exact and_congr_right fun _ => wbAux_iff ht none content.data
  · intro allImports content imp
    unfold getRequiredImports
    rw [List.mem_filter]
    apply and_congr_right
    intro _
    cases hp : parseImportStatement imp with
    | none =>
      constructor
      · intro h
        cases h
      · intro ⟨form, hform, _⟩
        cases hform
    | some form =>
      constructor
      · intro h
        exact ⟨form, rfl, h⟩
      · intro ⟨form2, hform2, hused⟩
        cases Option.some.inj hform2
        exact hused

theorem C5_import_filter_characterization_witness :
    "Foo" ∈ ["Foo"] ∧ ∃ pre suf : List Char,
      ("x: Foo;" : String).data = pre ++ ("Foo" : String).data ++ suf ∧
      prevCharOk none pre = true ∧ headNotWord suf = true :=
  (C5_import_filter_characterization.1 ["Foo"] "x: Foo;" "Foo"
    (by decide) (by decide)).mp (by decide)

/-- C5 counterexample. The imported name `Foo` occurs in the group text
only as a proper sub-string of the identifier `Foobar`, the boundary test
rejects it — yet `getRequiredImports` retains the import, so the
name-boundary claim fails for that routine. -/
theorem C5_substring_retention_counterexample :
    getRequiredImports "const Foobar = 1;" ["import { Foo } from \"x\";"] =
      ["import { Foo } from \"x\";"]
    ∧ wordBoundaryOccurs "Foo" "const Foobar = 1;" = false
    ∧ filterUsedTypes ["Foo"] "const Foobar = 1;" = [] := by
  refine ⟨by decide, by decide, by decide⟩

theorem splitOnChar_ne_nil (sep : Char) (l : List Char) :
    splitOnChar sep l ≠ [] := by
  cases l with
  | nil => simp [splitOnChar]
  | cons c rest =>
    rw [splitOnChar]
    by_cases h : c = sep
    · simp [h]
    · simp only [h, if_false]
      cases splitOnChar sep rest with
      | nil => simp
      | cons s ss => simp

theorem joinHyphen_cons_cons (s s2 : List Char) (ss : List (List Char)) :
    joinHyphen (s :: s2 :: ss) = s ++ '-' :: joinHyphen (s2 :: ss) := rfl

theorem joinHyphen_splitOnChar (l : List Char) :
    joinHyphen (splitOnChar '-' l) = l := by
  induction l with
  | nil => rfl
  | cons c rest ih =>
    rw [splitOnChar]
    by_cases h : c = '-'
    · simp only [h, if_true]
      cases hs : splitOnChar '-' rest with
      | nil => exact absurd hs (splitOnChar_ne_nil '-' rest)
      | cons s ss =>
        rw [hs] at ih
        rw [joinHyphen_cons_cons, ih]
        rfl
    · simp only [h, if_false]
      cases hs : splitOnChar '-' rest with
      | nil => exact absurd hs (splitOnChar_ne_nil '-' rest)
      | cons s ss =>
        rw [hs] at ih
        cases ss with
        | nil =>
          have e1 : joinHyphen [c :: s] = c :: s := rfl
          have e2 : joinHyphen [s] = s := rfl
          rw [e2] at ih
          rw [e1, ih]
        | cons s2 ss2 =>
          rw [joinHyphen_cons_cons, List.cons_append]
          rw [joinHyphen_cons_cons] at ih
          rw [ih]

theorem splitOnChar_not_mem {sep : Char} :
    ∀ {l seg : List Char}, seg ∈ splitOnChar sep l → sep ∉ seg := by
  intro l
  induction l with
  | nil =>
    intro seg hseg
    simp [splitOnChar] at hseg
    simp [hseg]
  | cons c rest ih =>
    intro seg hseg
    rw [splitOnChar] at hseg
    by_cases h : c = sep
    · rw [if_pos h] at hseg
      rcases List.mem_cons.mp hseg with rfl | hmem
      · simp
      · exact ih hmem
    · rw [if_neg h] at hseg
      cases hs : splitOnChar sep rest with
      | nil => exact absurd hs (splitOnChar_ne_nil sep rest)
      | cons s ss =>
        rw [hs] at hseg
        rcases List.mem_cons.mp hseg with rfl | hmem
        · intro hm
          rcases List.mem_cons.mp hm with rfl | hm2
          · exact h rfl
          · exact ih (hs ▸ List.mem_cons_self s ss) hm2
        · exact ih (hs ▸ List.mem_cons_of_mem s hmem)

theorem pascalGo_cons_ne {c : Char} (rest : List Char) (hc : c ≠ '-') :
    pascalGo (c :: rest) = c :: pascalGo rest := by
  cases rest with
  | nil => simp [pascalGo, hc]
  | cons d r => simp [pascalGo, hc]

theorem pascalGo_append {seg : List Char} (h : '-' ∉ seg) (t : List Char) :
    pascalGo (seg ++ t) = seg ++ pascalGo t := by
  induction seg with
  | nil => rfl
  | cons c s ih =>
    simp only [List.mem_cons, not_or] at h
    rw [List.cons_append, pascalGo_cons_ne _ (fun e => h.1 e.symm), ih h.2]
    rfl

theorem pascalGo_hyphen_lower {d : Char} (tail : List Char) (hd : d.isLower = true) :
    pascalGo ('-' :: d :: tail) = d.toUpper :: pascalGo tail := by
  simp [pascalGo, hd]

theorem pascalChars_cons_lower {d : Char} (tail : List Char) (hd : d.isLower = true) :
    pascalChars (d :: tail) = d.toUpper :: pascalGo tail := by
  simp [pascalChars, hd]

theorem pascal_joinHyphen :
    ∀ segs : List (List Char), segs ≠ [] →
    (∀ seg ∈ segs, seg ≠ [] ∧ headIsLower seg = true ∧ '-' ∉ seg) →
    pascalChars (joinHyphen segs) = List.flatten (segs.map capitalizeSeg) := by
  intro segs
  induction segs with
  | nil => intro h; exact absurd rfl h
  | cons seg segs' ih =>
    intro _ hall
    obtain ⟨hne, hlow, hnoh⟩ := hall seg (List.mem_cons_self _ _)
    obtain ⟨c, s, rfl⟩ : ∃ c s, seg = c :: s := by
      cases seg with
      | nil => exact absurd rfl hne
      | cons c s => exact ⟨c, s, rfl⟩
    have hc : c.isLower = true := hlow
    simp only [List.mem_cons, not_or] at hnoh
    cases segs' with
    | nil =>
      have e1 : joinHyphen [c :: s] = c :: s := rfl
      rw [e1, pascalChars_cons_lower s hc]
      rw [show s = s ++ [] from (List.append_nil s).symm, pascalGo_append hnoh.2]
      simp [capitalizeSeg, pascalGo]
    | cons seg2 segs'' =>
      obtain ⟨hne2, hlow2, -⟩ := hall seg2 (List.mem_cons_of_mem _ (List.mem_cons_self _ _))
      obtain ⟨d, s2, rfl⟩ : ∃ d s2, seg2 = d :: s2 := by
        cases seg2 with
        | nil => exact absurd rfl hne2
        | cons d s2 => exact ⟨d, s2, rfl⟩
      have hd : d.isLower = true := hlow2
      have hJ : ∃ tailJ, joinHyphen ((d :: s2) :: segs'') = d :: tailJ := by
        cases segs'' with
        | nil => exact ⟨s2, rfl⟩
        | cons a b => exact ⟨s2 ++ '-' :: joinHyphen (a :: b), rfl⟩
      obtain ⟨tailJ, htailJ⟩ := hJ
      rw [joinHyphen_cons_cons, List.cons_append, pascalChars_cons_lower _ hc,
        pascalGo_append hnoh.2, htailJ, pascalGo_hyphen_lower _ hd]
      have hih := ih (List.cons_ne_nil _ _)
        (fun g hg => hall g (List.mem_cons_of_mem _ hg))
      rw [htailJ, pascalChars_cons_lower _ hd] at hih
      rw [hih]
      simp [capitalizeSeg]

/-- C7 (amended). When every hyphen-separated segment of the base name is
non-empty and begins with a lower-case ASCII letter, `toPascalCase` agrees
with the reference derivation (split on hyphens, upper-case each segment's
first character, concatenate), and `extractMainComponentName` is that
derivation verbatim; for other base names `toPascalCase` can leave the
hyphen in place (see the counterexample). -/
theorem C7_pascal_case_characterization (s : String)
    (hsegs : ∀ seg ∈ splitOnChar '-' s.data, seg ≠ [] ∧ headIsLower seg = true) :
    toPascalCase s = specPascalCase s
    ∧ extractMainComponentName s = specPascalCase s := by
  refine ⟨?_, rfl⟩
  unfold toPascalCase specPascalCase
  have hjoin := joinHyphen_splitOnChar s.data
  have := pascal_joinHyphen (splitOnChar '-' s.data) (splitOnChar_ne_nil '-' s.data)
    (fun seg hseg => ⟨(hsegs seg hseg).1, (hsegs seg hseg).2, splitOnChar_not_mem hseg⟩)
  rw [hjoin] at this
  rw [this]

theorem C7_pascal_case_characterization_witness :
    toPascalCase "my-file" = specPascalCase "my-file"
    ∧ extractMainComponentName "my-file" = specPascalCase "my-file" :=
  C7_pascal_case_characterization "my-file" (by decide)

/-- C7 counterexample. On `a-1b` the regex replace of `toPascalCase` does
not fire at `-1` (the character after the hyphen is not `[a-z]`), so the
hyphen survives: `toPascalCase` disagrees with the reference derivation,
which `extractMainComponentName` implements. -/
theorem C7_pascal_case_counterexample :
    toPascalCase "a-1b" = "A-1b"
    ∧ extractMainComponentName "a-1b" = "A1b"
    ∧ specPascalCase "a-1b" = "A1b"
    ∧ toPascalCase "a-1b" ≠ specPascalCase "a-1b" := by
  refine ⟨by decide, by decide, by decide, by decide⟩

/-- C8 counterexample. Two files contain the identical block text
`const Foo = () => 1;` and the same file-level default-export declaration
`export default Foo;` (both files default-export `Foo`), yet the code
classifies the block Main when the declaration follows it and Sub when it
precedes it — the category is not a function of block text and the
default-export declaration alone. -/
theorem C8_position_dependence_counterexample :
    (["const Foo = () => 1;", "export default Foo;"].drop 0).headD "" =
      (["export default Foo;", "const Foo = () => 1;"].drop 1).headD ""
    ∧ componentNameOf "const Foo = () => 1;" = some "Foo"
    ∧ isDefaultExportDecl ["const Foo = () => 1;", "export default Foo;"] "Foo"
        = true
    ∧ isDefaultExportDecl ["export default Foo;", "const Foo = () => 1;"] "Foo"
        = true
    ∧ classifyAt ["const Foo = () => 1;", "export default Foo;"] 0 =
        LineClass.mainRule
    ∧ classifyAt ["export default Foo;", "const Foo = () => 1;"] 1 =
        LineClass.subRule := by
  decide
